import Mathlib

/-!
Verification of the order-history scraper (`get-order-history.js`).

The pure, testable core of the script is shallowly embedded here:
currency parsing (`usdToCents`, `centsToUSD`), quantity-prefix parsing of
article names, CSV row formatting, shipping-cost inference, the
returned-shipment accounting, the year-argument handling, and the
error-handling helpers (`textOrEmpty`, `loadCookies`/`saveCookies`,
`waitUntil`).  JavaScript strings are modelled as `String`/`List Char`,
machine numbers as `Nat`/`Int` (all the integer quantities involved are
cent amounts far below 2^53, where JS numbers are exact), fallible
operations as `Option`/`Except`, and the regular expressions used by the
script as explicit backtracking matchers with JS semantics.
-/

namespace OrderHistory

/-- The ECMAScript `\s` character class (WhiteSpace ∪ LineTerminator):
TAB, LF, VT, FF, CR, SP, NBSP, OGHAM SP, U+2000–U+200A, LS, PS, NNBSP,
MMSP, IDEOGRAPHIC SP, ZWNBSP. -/
def jsWs (c : Char) : Bool :=
  let n := c.toNat
  n == 9 || n == 10 || n == 11 || n == 12 || n == 13 || n == 32 ||
  n == 160 || n == 5760 || (8192 ≤ n && n ≤ 8202) || n == 8232 ||
  n == 8233 || n == 8239 || n == 8287 || n == 12288 || n == 65279

/-- One pass of `String.prototype.replace(/\s+/g, " ")`: every maximal run
of whitespace becomes a single space.  The flag records whether we are
currently inside a whitespace run. -/
def collapseWsAux : Bool → List Char → List Char
  | _, [] => []
  | inRun, c :: rest =>
      if jsWs c then
        if inRun then collapseWsAux true rest
        else ' ' :: collapseWsAux true rest
      else c :: collapseWsAux false rest

def collapseWs (l : List Char) : List Char := collapseWsAux false l

/-- JS `String.prototype.trim()` on the tail end: drop trailing whitespace. -/
def trimEndWs (l : List Char) : List Char :=
  (l.reverse.dropWhile jsWs).reverse

/-- JS `String.prototype.trim()`: drop leading and trailing whitespace. -/
def jsTrim (l : List Char) : List Char :=
  trimEndWs (l.dropWhile jsWs)

def jsTrimStr (s : String) : String := ⟨jsTrim s.toList⟩

/-- Value of a decimal digit string, `parseInt` style (the callers only
ever pass all-digit strings; on the empty list this yields 0, matching
`parseInt("") || 0`). -/
def digitsToNat (l : List Char) : Nat :=
  l.foldl (fun a c => a * 10 + (c.toNat - 48)) 0

/-- JS `parseInt(s, 10) || 0` for the strings this script builds: the value
of the maximal leading digit run (0 when there is none, since `NaN || 0`
is 0). -/
def jsParseInt (l : List Char) : Nat :=
  digitsToNat (l.takeWhile Char.isDigit)

/- ===== the regex /\$?\s*(\d{1,3}(,\d{3})*|\d+)\.\d{2}/ =====

Each piece below returns `some n` when the corresponding part of the
pattern can match a prefix of length `n` of its input such that the rest
of the pattern also matches, mirroring the JS backtracking search. -/

/-- The tail `\.\d{2}` of the pattern (nothing follows it, so it matches
a 3-character prefix `. d d`). -/
def matchDotCC (l : List Char) : Option Nat :=
  match l with
  | a :: b :: c :: _ =>
      if a = '.' && b.isDigit && c.isDigit then some 3 else none
  | _ => none

/-- The group star `(,\d{3})*` followed by `\.\d{2}`, greedy with backtracking: try to
consume one more `,ddd` group and continue; if that whole branch fails,
stop repeating here and match `\.\d{2}`. -/
def matchGroups : List Char → Option Nat
  | a :: b :: c :: d :: rest =>
      (if a = ',' && b.isDigit && c.isDigit && d.isDigit then
        (matchGroups rest).map (· + 4)
      else none) <|> matchDotCC (a :: b :: c :: d :: rest)
  | l => matchDotCC l

/-- First alternative `\d{1,3}(,\d{3})*\.\d{2}`: `\d{1,3}` is greedy, so
try 3 digits, then 2, then 1, each followed by the group star. -/
def matchAlt1 (l : List Char) : Option Nat :=
  (match l with
   | a :: b :: c :: rest =>
       if a.isDigit && b.isDigit && c.isDigit then
         (matchGroups rest).map (· + 3)
       else none
   | _ => none) <|>
  (match l with
   | a :: b :: rest =>
       if a.isDigit && b.isDigit then (matchGroups rest).map (· + 2)
       else none
   | _ => none) <|>
  (match l with
   | a :: rest => if a.isDigit then (matchGroups rest).map (· + 1) else none
   | _ => none)

/-- Second alternative `\d+\.\d{2}`: `\d+` greedy with backtracking
(consume a digit, then prefer more digits before trying `\.\d{2}`). -/
def matchDPlus : List Char → Option Nat
  | a :: rest =>
      if a.isDigit then ((matchDPlus rest) <|> matchDotCC rest).map (· + 1)
      else none
  | [] => none

/-- The parenthesised alternation: the first alternative is preferred. -/
def matchNum (l : List Char) : Option Nat :=
  matchAlt1 l <|> matchDPlus l

/-- Whitespace `\s*` then the number.  Maximal munch is exact here: the number starts
with a digit, and no whitespace character is a digit, so giving back
whitespace can never help. -/
def afterDollar (l : List Char) : Option Nat :=
  (matchNum (l.dropWhile jsWs)).map (· + (l.takeWhile jsWs).length)

/-- The whole pattern at one position: the optional `\$` is tried with the
dollar sign first. -/
def matchAt (l : List Char) : Option Nat :=
  match l with
  | c :: rest =>
      if c = '$' then ((afterDollar rest).map (· + 1)) <|> afterDollar (c :: rest)
      else afterDollar (c :: rest)
  | [] => afterDollar []

/-- JS `String.prototype.match`: try the pattern at each position from the
left, returning the matched substring `m[0]` of the first position that
matches.  (The pattern requires a digit, so it can never match at the
empty tail; the `[]` case is therefore `none`.) -/
def regexSearch : List Char → Option (List Char)
  | [] => none
  | c :: rest =>
      match matchAt (c :: rest) with
      | some n => some ((c :: rest).take n)
      | none => regexSearch rest

/-- The lines of `usdToCents` that run after a successful match `m`:

    const normalized = m[0].replace(/[^\d.]/g, "");
    const [dollars, cents = "00"] = normalized.split(".");
    return (parseInt(dollars, 10) || 0) * 100 + (parseInt(cents, 10) || 0);

(`split(".")` destructured to its first two components: the digits before
the first `.`, and the characters between the first and second `.`, with
`"00"` as the default when there is no `.` at all). -/
def extractValue (matched : List Char) : Nat :=
  let normalized := matched.filter (fun c => c.isDigit || c = '.')
  let dollars := normalized.takeWhile (fun c => c ≠ '.')
  let cents :=
    match normalized.dropWhile (fun c => c ≠ '.') with
    | _ :: r => r.takeWhile (fun c => c ≠ '.')
    | [] => ['0', '0']
  jsParseInt dollars * 100 + jsParseInt cents

/-- Function `usdToCents` from `get-order-history.js`:

    if (!value) return 0;
    const s = String(value).replace(/\s+/g, " ").trim();
    const m = s.match(/\$?\s*(\d{1,3}(,\d{3})*|\d+)\.\d{2}/);
    if (!m) return 0;
    return extractValue(m[0]);   // see extractValue above

`none` stands for a `null`/`undefined` argument (the only falsy string
is `""`). -/
def usdToCents (value : Option String) : Nat :=
  match value with
  | none => 0
  | some v =>
    if v = "" then 0
    else
      match regexSearch (jsTrim (collapseWs v.toList)) with
      | none => 0
      | some matched => extractValue matched

/-- Decimal digit character for `r < 10`. -/
def digitChar (r : Nat) : Char := Char.ofNat (48 + r)

/-- Decimal digits of `n`, most significant first; the first argument is
fuel (`n` itself always suffices since `n / 10 < n`). -/
def natToDecimalAux : Nat → Nat → List Char → List Char
  | 0, _, acc => acc
  | fuel + 1, n, acc =>
      if n = 0 then acc
      else natToDecimalAux fuel (n / 10) (digitChar (n % 10) :: acc)

def natToDecimal (n : Nat) : List Char :=
  if n = 0 then ['0'] else natToDecimalAux n n []

/-- Two-digit zero-padded fraction part, `r < 100`. -/
def pad2 (r : Nat) : List Char := [digitChar (r / 10), digitChar (r % 10)]

/-- Function `centsToUSD` from the script: `(cents / 100).toFixed(2)`.  For a cent
amount that is an exact integer (as every value fed to it here is),
`toFixed(2)` prints the exact two-decimal representation. -/
def centsToUSD (c : Nat) : String :=
  ⟨natToDecimal (c / 100) ++ '.' :: pad2 (c % 100)⟩

/-- All characters of the list are decimal digits. -/
def AllDigits (l : List Char) : Prop := ∀ c ∈ l, c.isDigit = true

/-- No character of the list is ECMAScript whitespace. -/
def NoWs (l : List Char) : Prop := ∀ c ∈ l, jsWs c = false

/-- A well-formed comma-grouped dollar string: the thousands groups, each
preceded by a comma, flattened. -/
def gsFlat (gs : List (List Char)) : List Char :=
  gs.flatMap (fun g => ',' :: g)

/-- Each group consists of exactly three digits. -/
def ValidGroups (gs : List (List Char)) : Prop :=
  ∀ g ∈ gs, g.length = 3 ∧ AllDigits g

/- ===== quantity-prefix parsing: /^(\d+)\s+(of|x)\s+/i ===== -/

/-- The `(of|x)` part, case-insensitive (ASCII, as in the JS regex):
`of` is the preferred alternative; on failure `x` is tried. -/
def qtySep : List Char → Option (List Char)
  | a :: b :: rest =>
      if a.toLower == 'o' && b.toLower == 'f' then some rest
      else if a.toLower == 'x' then some (b :: rest)
      else none
  | [a] => if a.toLower == 'x' then some [] else none
  | [] => none

/-- Anchored match of `/^(\d+)\s+(of|x)\s+/i`: returns the digit capture
and the remainder after the whole match.  Maximal munch is exact for each
greedy piece because the follow-sets are disjoint (`\d` vs `\s`, `\s` vs
`o`/`x`, and the final `\s+` ends the pattern). -/
def qtyMatch (l : List Char) : Option (List Char × List Char) :=
  let ds := l.takeWhile Char.isDigit
  if ds.isEmpty then none
  else
    let r1 := l.dropWhile Char.isDigit
    if (r1.takeWhile jsWs).isEmpty then none
    else
      match qtySep (r1.dropWhile jsWs) with
      | none => none
      | some r3 =>
          if (r3.takeWhile jsWs).isEmpty then none
          else some (ds, r3.dropWhile jsWs)

/-- The quantity-detection step of `processShipment`:

    let articleCount = 1;
    const mCount = articleName.match(/^(\d+)\s+(of|x)\s+/i);
    if (mCount) {
      articleCount = parseInt(mCount[1], 10) || 1;
      articleName = articleName.replace(/^(\d+)\s+(of|x)\s+/i, "");
    }
-/
def parseQtyName (articleName : String) : Nat × String :=
  match qtyMatch articleName.toList with
  | none => (1, articleName)
  | some (ds, remainder) =>
      let n := digitsToNat ds
      (if n = 0 then 1 else n, ⟨remainder⟩)

/-- The case-insensitive spellings of the `(of|x)` separator. -/
def ValidSep (sep : List Char) : Prop :=
  sep = ['o', 'f'] ∨ sep = ['O', 'f'] ∨ sep = ['o', 'F'] ∨
  sep = ['O', 'F'] ∨ sep = ['x'] ∨ sep = ['X']

/- ===== shipment processing ===== -/

/-- Case-insensitive prefix test (pattern given in lowercase). -/
def startsWithCI : List Char → List Char → Bool
  | [], _ => true
  | _ :: _, [] => false
  | p :: ps, t :: ts => (t.toLower == p) && startsWithCI ps ts

/-- Case-insensitive unanchored containment. -/
def containsCI (pat : List Char) : List Char → Bool
  | [] => startsWithCI pat []
  | t :: ts => startsWithCI pat (t :: ts) || containsCI pat ts

/-- Model of `returnedRegex.test(s)` for
`/(Return|Returned|Refund|Refunded|Replacement)/i`: the regex matches
somewhere in `s` iff one of the five literals occurs case-insensitively. -/
def returnedTest (s : String) : Bool :=
  containsCI "return".toList s.toList ||
  containsCI "returned".toList s.toList ||
  containsCI "refund".toList s.toList ||
  containsCI "refunded".toList s.toList ||
  containsCI "replacement".toList s.toList

/-- Status extraction `rawStatus.split("\n")[0].trim()`. -/
def shipmentStatusOf (rawStatus : String) : String :=
  ⟨jsTrim (rawStatus.toList.takeWhile (fun c => c ≠ '\n'))⟩

/-- Article-name step `articleName ? articleName.slice(0, 80).replace(/;/g, ",") : "ERROR: …"`
(JS string indices are UTF-16 units; the article names handled here are
modelled at character granularity). -/
def articleNameOf (nameText : String) : String :=
  if nameText = "" then "ERROR: selector_article_name not found"
  else ⟨(nameText.toList.take 80).map (fun c => if c = ';' then ',' else c)⟩

/-- The CSV row written for one item inside `processShipment`. -/
def itemRow (orderDate shipmentStatus : String) (shipmentIsReturn : Bool)
    (nameText priceText : String) : List String :=
  let q := parseQtyName (articleNameOf nameText)
  let singleCents := usdToCents (some priceText)
  [orderDate, shipmentStatus, toString q.1, q.2, centsToUSD singleCents,
   centsToUSD (if shipmentIsReturn then 0 else singleCents * q.1), ""]

/-- The item loop of `processShipment`: emits one row per item and
accumulates `shipmentTotal` and `shipmentTotalAfterReturns` (line totals
are excluded from the latter when the shipment is a return). -/
def processItems (orderDate shipmentStatus : String) (shipmentIsReturn : Bool) :
    List (String × String) → List (List String) × Nat × Nat
  | [] => ([], 0, 0)
  | item :: rest =>
      let singleCents := usdToCents (some item.2)
      let lineCents := singleCents * (parseQtyName (articleNameOf item.1)).1
      let r := processItems orderDate shipmentStatus shipmentIsReturn rest
      (itemRow orderDate shipmentStatus shipmentIsReturn item.1 item.2 :: r.1,
       lineCents + r.2.1,
       (if shipmentIsReturn then 0 else lineCents) + r.2.2)

/-- Model of `processShipment`: each item is a pair (article-name text, price text)
as read from the DOM.  Returns the CSV rows written and the pair
`(shipmentTotal, shipmentTotalAfterReturns)`. -/
def processShipment (orderDate rawStatus : String)
    (items : List (String × String)) : List (List String) × Nat × Nat :=
  processItems orderDate (shipmentStatusOf rawStatus)
    (returnedTest (shipmentStatusOf rawStatus)) items

/- ===== shipping-cost inference ===== -/

/-- Model of `calculateAndWriteShippingCosts`: infer the shipping cost as the
order-level price minus the item subtotal, clamped below at 0, and emit a
`shipment` row iff the cost is strictly positive.  Returns the cost and
the rows written. -/
def calculateAndWriteShippingCosts (orderDate : String)
    (orderPriceCents orderArticlePricesTotal : Int) :
    Int × List (List String) :=
  let costRaw := orderPriceCents - orderArticlePricesTotal
  let shipmentCostCents := if costRaw < 0 then 0 else costRaw
  (shipmentCostCents,
   if 0 < shipmentCostCents then
     [[orderDate, "", "1", "shipment", centsToUSD shipmentCostCents.toNat,
       centsToUSD shipmentCostCents.toNat, ""]]
   else [])

/- ===== CSV output ===== -/

/-- Quote escaping `s.replace(/"/g, '""')`. -/
def escQuotes (l : List Char) : List Char :=
  l.flatMap (fun c => if c = '"' then ['"', '"'] else [c])

/-- One quoted CSV field. -/
def quoteField (s : String) : List Char :=
  '"' :: escQuotes s.toList ++ ['"']

/-- Field joining `.join(";")`. -/
def joinSemi : List (List Char) → List Char
  | [] => []
  | [f] => f
  | f :: g :: rest => f ++ ';' :: joinSemi (g :: rest)

/-- Model of `writeCSVRow`: `rowData.map(s => '"' + s.replace(/"/g,'""') + '"')
.join(";") + "\n"`. -/
def csvRow (rowData : List String) : String :=
  ⟨joinSemi (rowData.map quoteField) ++ ['\n']⟩

/-- The header literal written by `main`. -/
def headerLine : String :=
  "\"Date\";\"Shipment Status\";\"Article Count\";\"Article Name\";\"Single Price\";\"Total Price\";\"Tags\"\n"

def headerFields : List String :=
  ["Date", "Shipment Status", "Article Count", "Article Name", "Single Price",
   "Total Price", "Tags"]

/-- Model of `fsp.appendFile`: the file (as a list of already-written lines) only
grows at the end. -/
def appendRow (file : List String) (row : String) : List String :=
  file ++ [row]

/-- Parser for one quoted CSV field (the opening quote has already been
consumed): returns the field content and the remainder after the closing
quote, treating `""` as an escaped quote. -/
def parseField : List Char → Option (List Char × List Char)
  | [] => none
  | ['"'] => some ([], [])
  | '"' :: '"' :: rest => (parseField rest).map (fun p => ('"' :: p.1, p.2))
  | '"' :: c :: rest => some ([], c :: rest)
  | c :: rest => (parseField rest).map (fun p => (c :: p.1, p.2))

/-- Parser for a `;`-separated list of quoted fields terminated by a
newline.  The first argument is fuel (one unit per field). -/
def parseFieldsAux : Nat → List Char → Option (List String)
  | 0, _ => none
  | fuel + 1, '"' :: rest =>
      match parseField rest with
      | none => none
      | some (content, r) =>
          match r with
          | ';' :: r2 =>
              match parseFieldsAux fuel r2 with
              | some fs => some (String.mk content :: fs)
              | none => none
          | ['\n'] => some [String.mk content]
          | _ => none
  | _ + 1, _ => none

/-- Parse one CSV line back into its fields (inverse of `csvRow`). -/
def parseCSVLine (s : String) : Option (List String) :=
  parseFieldsAux (s.toList.length + 1) s.toList

/- ===== CLI years ===== -/

/-- The loop `for (let y = current; y >= 2000; y--) years.push(String(y))`. -/
def yearsDesc (y : Nat) : List String :=
  if h : 2000 ≤ y then toString y :: yearsDesc (y - 1) else []
termination_by y
decreasing_by omega

/-- Model of `getYearsFromArg`: `argv2 = none` models an absent argument, and an
empty string is falsy like an absent one. -/
def getYearsFromArg (argv2 : Option String) (currentYear : Nat) :
    List String :=
  match argv2 with
  | some a => if a = "" then yearsDesc currentYear else [a]
  | none => yearsDesc currentYear

/- ===== error-handling helpers ===== -/

/-- The possible outcomes of `el.$(selector)` / `child.evaluate(...)` in
`textOrEmpty`: the query can throw, match nothing, the evaluation can
throw, or it yields the element's text content. -/
inductive TextQueryOutcome where
  | queryThrows
  | noChild
  | evalThrows
  | evalText (raw : String)

/-- Model of `textOrEmpty`: every failure path is caught and becomes `""`;
otherwise the trimmed text (or `""` when that is empty, via `txt || ""`). -/
def textOrEmpty : TextQueryOutcome → String
  | .queryThrows => ""
  | .noChild => ""
  | .evalThrows => ""
  | .evalText raw => if jsTrimStr raw = "" then "" else jsTrimStr raw

/-- State of the cookie file on disk as seen by `loadCookies`. -/
inductive CookieFileState where
  | absent
  | unreadable
  | malformed
  | parsed (cookies : List String)

/-- Model of `loadCookies`: `false` when the file is absent, unreadable or holds
malformed JSON (the surrounding `try` swallows the exception), `true` only
after `page.setCookie` succeeded on every cookie (a throwing `setCookie`
is also swallowed into `false`). -/
def loadCookies (file : CookieFileState)
    (setCookie : String → Except Unit Unit) : Bool :=
  match file with
  | .absent => false
  | .unreadable => false
  | .malformed => false
  | .parsed cookies =>
      if cookies.all (fun c =>
          match setCookie c with
          | Except.ok _ => true
          | Except.error _ => false) then true
      else false

/-- The final `try { await saveCookies(...) } catch {}` in `main`: the
outcome of the save never escapes. -/
def mainFinalSave (saveResult : Except String Unit) : Except String Unit :=
  match saveResult with
  | _ => Except.ok ()

/-- The guarded check `try { if (await checkFn()) return true } catch { /* ignore */ }`:
the attempt passes iff the check returned `true`; an exception counts as
a failed attempt. -/
def checkPassed (r : Except Unit Bool) : Bool :=
  match r with
  | Except.ok b => b
  | Except.error _ => false

/-- Model of `waitUntil`: attempt `k` runs at elapsed time `k * intervalMs`; an
exception from the check (`Except.error`) is ignored like a `false`; after
a failed attempt the loop throws once the elapsed time exceeds
`timeoutMs`. -/
def waitUntilAux (checks : Nat → Except Unit Bool) (timeoutMs intervalMs : Nat)
    (hiv : 0 < intervalMs) (k : Nat) : Except String Bool :=
  if checkPassed (checks k) then Except.ok true
  else if timeoutMs < k * intervalMs then
    Except.error "Timed out waiting for condition"
  else waitUntilAux checks timeoutMs intervalMs hiv (k + 1)
termination_by timeoutMs / intervalMs + 1 - k
decreasing_by
  rename_i htime
  have hk : k * intervalMs ≤ timeoutMs := by omega
  have hkd : k ≤ timeoutMs / intervalMs := (Nat.le_div_iff_mul_le hiv).mpr hk
  omega

def waitUntil (checks : Nat → Except Unit Bool) (timeoutMs intervalMs : Nat)
    (hiv : 0 < intervalMs) : Except String Bool :=
  waitUntilAux checks timeoutMs intervalMs hiv 0

/-- Model of `ensureSignedInAndOnOrders`, after navigation: a passive `waitUntil`
with a fixed 10-minute timeout and 1-second polling; afterwards the
cookie save is wrapped in `try { … } catch {}` so its outcome never
escapes.  A timeout of the wait propagates (aborting the run). -/
def ensureSignedInAndOnOrders (checks : Nat → Except Unit Bool)
    (saveResult : Except String Unit) : Except String Unit :=
  match waitUntil checks (10 * 60 * 1000) 1000 (by omega) with
  | Except.error e => Except.error e
  | Except.ok _ =>
      match saveResult with
      | _ => Except.ok ()

/-! ### Character-class facts -/

theorem isDigit_toNat {c : Char} (h : c.isDigit = true) :
    48 ≤ c.toNat ∧ c.toNat ≤ 57 := by
  simp only [Char.isDigit, ge_iff_le, Bool.and_eq_true, decide_eq_true_eq] at h
  obtain ⟨h1, h2⟩ := h
  rw [UInt32.le_def, BitVec.le_def] at h1 h2
  exact ⟨h1, h2⟩

theorem digit_not_ws {c : Char} (h : c.isDigit = true) : jsWs c = false := by
  obtain ⟨h1, h2⟩ := isDigit_toNat h
  simp only [jsWs, Bool.or_eq_false_iff, Bool.and_eq_false_iff,
    beq_eq_false_iff_ne, ne_eq, decide_eq_false_iff_not, not_le]
  omega

theorem ne_of_isDigit {c d : Char} (h : c.isDigit = true)
    (h2 : d.isDigit = false) : c ≠ d := by
  intro he
  rw [he, h2] at h
  cases h

theorem digit_ne_dot {c : Char} (h : c.isDigit = true) : c ≠ '.' :=
  ne_of_isDigit h (by decide)

theorem digit_ne_comma {c : Char} (h : c.isDigit = true) : c ≠ ',' :=
  ne_of_isDigit h (by decide)

theorem digit_ne_dollar {c : Char} (h : c.isDigit = true) : c ≠ '$' :=
  ne_of_isDigit h (by decide)

/-! ### Normalisation lemmas: `replace(/\s+/g, " ").trim()` leaves a
whitespace-free prefix untouched -/

theorem collapseWsAux_append {xs : List Char} (h : NoWs xs) (ys : List Char) :
    collapseWsAux false (xs ++ ys) = xs ++ collapseWsAux false ys := by
  induction xs with
  | nil => rfl
  | cons c rest ih =>
      have hc : jsWs c = false := h c (List.mem_cons_self c rest)
      have hrest : NoWs rest := fun d hd => h d (List.mem_cons_of_mem c hd)
      simp [collapseWsAux, hc, ih hrest]

theorem dropWhile_of_noWs {l : List Char} (h : NoWs l) :
    l.dropWhile jsWs = l := by
  cases l with
  | nil => rfl
  | cons c rest =>
      have hc : jsWs c = false := h c (List.mem_cons_self c rest)
      simp [List.dropWhile_cons, hc]

theorem trimEndWs_append {xs : List Char} (h : NoWs xs) (ys : List Char) :
    trimEndWs (xs ++ ys) = xs ++ trimEndWs ys := by
  unfold trimEndWs
  rw [List.reverse_append, List.dropWhile_append]
  by_cases he : (ys.reverse.dropWhile jsWs).isEmpty
  · rw [if_pos he]
    rw [List.isEmpty_iff] at he
    rw [dropWhile_of_noWs (fun c hc => h c (List.mem_reverse.mp hc)), he,
      List.reverse_reverse, List.reverse_nil, List.append_nil]
  · rw [if_neg he, List.reverse_append, List.reverse_reverse]

theorem jsTrim_collapse_append {xs : List Char} (hne : xs ≠ []) (h : NoWs xs)
    (ys : List Char) :
    jsTrim (collapseWs (xs ++ ys)) =
      xs ++ trimEndWs (collapseWsAux false ys) := by
  unfold jsTrim collapseWs
  rw [collapseWsAux_append h, List.dropWhile_append]
  have hdx : xs.dropWhile jsWs = xs := dropWhile_of_noWs h
  rw [hdx]
  rw [if_neg (by simpa [List.isEmpty_iff] using hne)]
  exact trimEndWs_append h _

theorem jsTrim_collapse_of_noWs {l : List Char} (h : NoWs l) :
    jsTrim (collapseWs l) = l := by
  cases l with
  | nil => rfl
  | cons c rest =>
      have := @jsTrim_collapse_append (c :: rest) (by simp) h []
      simpa [trimEndWs, collapseWsAux] using this

/-! ### Matcher lemmas for the currency pattern -/

theorem takeWhile_all {p : Char → Bool} {l : List Char}
    (h : ∀ c ∈ l, p c = true) : l.takeWhile p = l :=
  List.takeWhile_eq_self_iff.mpr h

theorem takeWhile_append_stop {p : Char → Bool} {xs : List Char} {y : Char}
    (h : ∀ c ∈ xs, p c = true) (hy : p y = false) (ys : List Char) :
    (xs ++ y :: ys).takeWhile p = xs := by
  rw [List.takeWhile_append_of_pos h, List.takeWhile_cons, hy]
  simp

theorem dropWhile_append_stop {p : Char → Bool} {xs : List Char} {y : Char}
    (h : ∀ c ∈ xs, p c = true) (hy : p y = false) (ys : List Char) :
    (xs ++ y :: ys).dropWhile p = y :: ys := by
  rw [List.dropWhile_append_of_pos h, List.dropWhile_cons, hy]
  simp

theorem matchDotCC_dot {c1 c2 : Char} (h1 : c1.isDigit = true)
    (h2 : c2.isDigit = true) (rest : List Char) :
    matchDotCC ('.' :: c1 :: c2 :: rest) = some 3 := by
  simp [matchDotCC, h1, h2]

theorem matchDotCC_not_dot {a : Char} (ha : a ≠ '.') (xs : List Char) :
    matchDotCC (a :: xs) = none := by
  match xs with
  | [] => rfl
  | [_] => rfl
  | b :: c :: rest => simp [matchDotCC, ha]

theorem matchGroups_digit_head {a : Char} (ha : a.isDigit = true)
    (xs : List Char) : matchGroups (a :: xs) = none := by
  have hdot := matchDotCC_not_dot (digit_ne_dot ha) xs
  match xs with
  | [] => rfl
  | [_] => rfl
  | [_, _] => simpa [matchGroups] using hdot
  | b :: c :: d :: rest =>
      simp [matchGroups, digit_ne_comma ha, hdot]

theorem gsFlat_length {gs : List (List Char)} (h : ValidGroups gs) :
    (gsFlat gs).length = 4 * gs.length := by
  induction gs with
  | nil => rfl
  | cons g gs ih =>
      have hg := (h g (List.mem_cons_self g gs)).1
      have ht : ValidGroups gs := fun g' hg' => h g' (List.mem_cons_of_mem g hg')
      simp [gsFlat, List.flatMap_cons] at ih ⊢
      rw [ih ht, hg]
      ring

theorem exists_three {g : List Char} (h : g.length = 3) :
    ∃ x y z, g = [x, y, z] := by
  match g, h with
  | [x, y, z], _ => exact ⟨x, y, z, rfl⟩

theorem matchGroups_flat {gs : List (List Char)} {c1 c2 : Char}
    (hg : ValidGroups gs) (h1 : c1.isDigit = true) (h2 : c2.isDigit = true)
    (rest : List Char) :
    matchGroups (gsFlat gs ++ '.' :: c1 :: c2 :: rest) =
      some (4 * gs.length + 3) := by
  induction gs with
  | nil =>
      cases rest with
      | nil =>
          show matchGroups ['.', c1, c2] = some 3
          show matchDotCC ['.', c1, c2] = some 3
          exact matchDotCC_dot h1 h2 []
      | cons r rs =>
          show matchGroups ('.' :: c1 :: c2 :: r :: rs) = some 3
          simpa [matchGroups] using matchDotCC_dot h1 h2 (r :: rs)
  | cons g gs ih =>
      obtain ⟨hlen, hdig⟩ := hg g (List.mem_cons_self g gs)
      have ht : ValidGroups gs := fun g' hg' => hg g' (List.mem_cons_of_mem g hg')
      obtain ⟨x, y, z, rfl⟩ := exists_three hlen
      have hx : x.isDigit = true := hdig x (by simp)
      have hy : y.isDigit = true := hdig y (by simp)
      have hz : z.isDigit = true := hdig z (by simp)
      show matchGroups (',' :: x :: y :: z :: (gsFlat gs ++ '.' :: c1 :: c2 :: rest)) = _
      simp only [matchGroups, hx, hy, hz, ih ht, Bool.and_true, Bool.and_self,
        beq_self_eq_true, Bool.true_and, if_pos, Option.map_some]
      have : 4 * gs.length + 3 + 4 = 4 * (gs.length + 1) + 3 := by ring
      simp [this]

/-- The tail after `d0` in a well-formed amount starts with `,` or `.`;
either way it has at least three characters and its head is not a digit,
and `matchGroups` consumes it entirely. -/
theorem flat_shape {gs : List (List Char)} {c1 c2 : Char}
    (hg : ValidGroups gs) (rest : List Char) :
    ∃ t u v ws, gsFlat gs ++ '.' :: c1 :: c2 :: rest = t :: u :: v :: ws ∧
      t.isDigit = false := by
  cases gs with
  | nil => exact ⟨'.', c1, c2, rest, rfl, by decide⟩
  | cons g gs =>
      obtain ⟨x, y, z, rfl⟩ := exists_three (hg g (List.mem_cons_self g gs)).1
      exact ⟨',', x, y, z :: (gsFlat gs ++ '.' :: c1 :: c2 :: rest),
        by simp [gsFlat, List.flatMap_cons], by decide⟩

theorem matchAlt1_grouped {d0 : List Char} {gs : List (List Char)}
    {c1 c2 : Char} (hne : d0 ≠ []) (hlen : d0.length ≤ 3) (hd : AllDigits d0)
    (hg : ValidGroups gs) (h1 : c1.isDigit = true) (h2 : c2.isDigit = true)
    (rest : List Char) :
    matchAlt1 (d0 ++ gsFlat gs ++ '.' :: c1 :: c2 :: rest) =
      some (d0.length + (4 * gs.length + 3)) := by
  obtain ⟨t, u, v, ws, hT, htd⟩ := @flat_shape gs c1 c2 hg rest
  have hmg : matchGroups (gsFlat gs ++ '.' :: c1 :: c2 :: rest) =
      some (4 * gs.length + 3) := matchGroups_flat hg h1 h2 rest
  rw [hT] at hmg
  match d0, hne, hlen with
  | [a], _, _ =>
      have ha : a.isDigit = true := hd a (by simp)
      simp only [List.cons_append, List.nil_append, hT]
      simp [matchAlt1, ha, htd, hmg]
      omega
  | [a, b], _, _ =>
      have ha : a.isDigit = true := hd a (by simp)
      have hb : b.isDigit = true := hd b (by simp)
      simp only [List.cons_append, List.nil_append, hT]
      simp [matchAlt1, ha, hb, htd, hmg]
      omega
  | [a, b, c], _, _ =>
      have ha : a.isDigit = true := hd a (by simp)
      have hb : b.isDigit = true := hd b (by simp)
      have hc : c.isDigit = true := hd c (by simp)
      simp only [List.cons_append, List.nil_append, hT]
      simp [matchAlt1, ha, hb, hc, htd, hmg]
      omega

theorem matchAlt1_long {a b c d : Char} (ha : a.isDigit = true)
    (hb : b.isDigit = true) (hc : c.isDigit = true) (hd : d.isDigit = true)
    (xs : List Char) : matchAlt1 (a :: b :: c :: d :: xs) = none := by
  simp [matchAlt1, ha, hb, hc,
    matchGroups_digit_head hd, matchGroups_digit_head hc,
    matchGroups_digit_head hb]

theorem matchDPlus_none_dot {c1 c2 : Char} (rest : List Char) :
    matchDPlus ('.' :: c1 :: c2 :: rest) = none := by
  simp [matchDPlus]

theorem matchDPlus_parse {ds : List Char} (hne : ds ≠ []) (hd : AllDigits ds)
    {c1 c2 : Char} (h1 : c1.isDigit = true) (h2 : c2.isDigit = true)
    (rest : List Char) :
    matchDPlus (ds ++ '.' :: c1 :: c2 :: rest) = some (ds.length + 3) := by
  induction ds with
  | nil => exact absurd rfl hne
  | cons a ds ih =>
      have ha : a.isDigit = true := hd a (by simp)
      cases ds with
      | nil =>
          show matchDPlus (a :: '.' :: c1 :: c2 :: rest) = some 4
          simp [matchDPlus, ha, matchDPlus_none_dot, matchDotCC_dot h1 h2]
      | cons e es =>
          have hih := ih (by simp) (fun c hc => hd c (List.mem_cons_of_mem a hc))
          show matchDPlus (a :: ((e :: es) ++ '.' :: c1 :: c2 :: rest)) = _
          conv_lhs => rw [matchDPlus]
          rw [hih]
          simp [ha]

theorem matchNum_grouped {d0 : List Char} {gs : List (List Char)}
    {c1 c2 : Char} (hne : d0 ≠ []) (hlen : d0.length ≤ 3) (hd : AllDigits d0)
    (hg : ValidGroups gs) (h1 : c1.isDigit = true) (h2 : c2.isDigit = true)
    (rest : List Char) :
    matchNum (d0 ++ gsFlat gs ++ '.' :: c1 :: c2 :: rest) =
      some (d0.length + (4 * gs.length + 3)) := by
  unfold matchNum
  rw [matchAlt1_grouped hne hlen hd hg h1 h2 rest]
  rfl

theorem matchNum_plain {ds : List Char} (hne : ds ≠ []) (hd : AllDigits ds)
    {c1 c2 : Char} (h1 : c1.isDigit = true) (h2 : c2.isDigit = true)
    (rest : List Char) :
    matchNum (ds ++ '.' :: c1 :: c2 :: rest) = some (ds.length + 3) := by
  by_cases hlen : ds.length ≤ 3
  · have := @matchNum_grouped ds [] c1 c2 hne hlen hd
      (by intro g hg; cases hg) h1 h2 rest
    simpa [gsFlat] using this
  · push_neg at hlen
    obtain ⟨a, b, c, d, tl, rfl⟩ : ∃ a b c d tl, ds = a :: b :: c :: d :: tl := by
      match ds, hlen with
      | [], h => simp at h
      | [a], h => simp at h
      | [a, b], h => simp at h
      | [a, b, c], h => simp at h
      | a :: b :: c :: d :: tl, _ => exact ⟨a, b, c, d, tl, rfl⟩
    have ha : a.isDigit = true := hd a (by simp)
    have hb : b.isDigit = true := hd b (by simp)
    have hc : c.isDigit = true := hd c (by simp)
    have hdd : d.isDigit = true := hd d (by simp)
    unfold matchNum
    rw [show (a :: b :: c :: d :: tl) ++ '.' :: c1 :: c2 :: rest =
      a :: b :: c :: d :: (tl ++ '.' :: c1 :: c2 :: rest) by simp]
    rw [matchAlt1_long ha hb hc hdd]
    rw [show a :: b :: c :: d :: (tl ++ '.' :: c1 :: c2 :: rest) =
      (a :: b :: c :: d :: tl) ++ '.' :: c1 :: c2 :: rest by simp]
    rw [Option.none_orElse, matchDPlus_parse hne hd h1 h2 rest]

theorem afterDollar_digit_head {a : Char} (ha : a.isDigit = true)
    (xs : List Char) : afterDollar (a :: xs) = matchNum (a :: xs) := by
  unfold afterDollar
  have hws : ¬ jsWs a = true := by simp [digit_not_ws ha]
  rw [List.takeWhile_cons_of_neg hws, List.dropWhile_cons_of_neg hws]
  simp

theorem matchAt_not_dollar {a : Char} (hna : a ≠ '$') (xs : List Char) :
    matchAt (a :: xs) = afterDollar (a :: xs) := by
  simp [matchAt, hna]

theorem matchAt_dollar {body : List Char} {n : Nat}
    (h : afterDollar body = some n) :
    matchAt ('$' :: body) = some (n + 1) := by
  simp [matchAt, h]

theorem regexSearch_cons {c : Char} {rest : List Char} {n : Nat}
    (h : matchAt (c :: rest) = some n) :
    regexSearch (c :: rest) = some ((c :: rest).take n) := by
  conv_lhs => rw [regexSearch]
  rw [h]

/-! ### Evaluating `extractValue` on a matched amount -/

theorem filter_value_digits {l : List Char} (h : AllDigits l) :
    l.filter (fun c => c.isDigit || c = '.') = l :=
  List.filter_eq_self.mpr fun c hc => by simp [h c hc]

theorem filter_value_flat {gs : List (List Char)} (hg : ValidGroups gs) :
    (gsFlat gs).filter (fun c => c.isDigit || c = '.') = gs.flatten := by
  induction gs with
  | nil => rfl
  | cons g gs ih =>
      obtain ⟨_, hdig⟩ := hg g (List.mem_cons_self g gs)
      have ht : ValidGroups gs := fun g' hg' => hg g' (List.mem_cons_of_mem g hg')
      show ((',' :: g) ++ gsFlat gs).filter _ = _
      rw [List.filter_append, List.filter_cons]
      simp only [show ((fun c => c.isDigit || c = '.') ',') = false from rfl]
      rw [filter_value_digits hdig, ih ht]
      simp

theorem extractValue_congr {m m' : List Char}
    (h : m.filter (fun c => c.isDigit || c = '.') =
         m'.filter (fun c => c.isDigit || c = '.')) :
    extractValue m = extractValue m' := by
  unfold extractValue
  rw [h]

theorem extractValue_amount {ds : List Char} (hd : AllDigits ds)
    {c1 c2 : Char} (h1 : c1.isDigit = true) (h2 : c2.isDigit = true) :
    extractValue (ds ++ ['.', c1, c2]) =
      digitsToNat ds * 100 + digitsToNat [c1, c2] := by
  unfold extractValue
  have hnorm : (ds ++ ['.', c1, c2]).filter (fun c => c.isDigit || c = '.') =
      ds ++ ['.', c1, c2] := by
    refine List.filter_eq_self.mpr ?_
    intro c hc
    rcases List.mem_append.mp hc with h | h
    · simp [hd c h]
    · simp only [List.mem_cons, List.mem_singleton, List.not_mem_nil,
        or_false] at h
      rcases h with rfl | rfl | rfl
      · simp
      · simp [h1]
      · simp [h2]
  have hdsne : ∀ c ∈ ds, (fun c => decide (c ≠ '.')) c = true := fun c hc => by
    simp [digit_ne_dot (hd c hc)]
  have hdot : (fun c => decide (c ≠ '.')) '.' = false := by simp
  have htake : (ds ++ ['.', c1, c2]).takeWhile (fun c => c ≠ '.') = ds :=
    takeWhile_append_stop hdsne hdot [c1, c2]
  have hdrop : (ds ++ ['.', c1, c2]).dropWhile (fun c => c ≠ '.') =
      '.' :: [c1, c2] :=
    dropWhile_append_stop hdsne hdot [c1, c2]
  have hcents : ([c1, c2]).takeWhile (fun c => c ≠ '.') = [c1, c2] :=
    takeWhile_all fun c hc => by
      simp only [List.mem_cons, List.mem_singleton, List.not_mem_nil,
        or_false] at hc
      rcases hc with rfl | rfl
      · simp [digit_ne_dot h1]
      · simp [digit_ne_dot h2]
  simp only [hnorm, htake, hdrop, hcents]
  unfold jsParseInt
  rw [takeWhile_all hd, takeWhile_all (p := Char.isDigit)
    (fun c hc => by
      simp only [List.mem_cons, List.mem_singleton, List.not_mem_nil,
        or_false] at hc
      rcases hc with rfl | rfl
      · exact h1
      · exact h2)]

theorem mk_cons_ne_empty (c : Char) (l : List Char) :
    (⟨c :: l⟩ : String) ≠ "" := by
  intro h
  have := congrArg String.data h
  simp at this

theorem usdToCents_some_eq {v : String} (hv : v ≠ "") {m : List Char}
    (hm : regexSearch (jsTrim (collapseWs v.toList)) = some m) :
    usdToCents (some v) = extractValue m := by
  show (if v = "" then 0
    else match regexSearch (jsTrim (collapseWs v.toList)) with
      | none => 0
      | some matched => extractValue matched) = _
  rw [if_neg hv, hm]

theorem allDigits_flatten {gs : List (List Char)} (hg : ValidGroups gs) :
    AllDigits gs.flatten := fun c hc => by
  obtain ⟨g, hgm, hcg⟩ := List.mem_flatten.mp hc
  exact (hg g hgm).2 c hcg

theorem noWs_amount {d0 : List Char} {gs : List (List Char)} {c1 c2 : Char}
    (hd : AllDigits d0) (hg : ValidGroups gs) (h1 : c1.isDigit = true)
    (h2 : c2.isDigit = true) :
    NoWs ('$' :: (d0 ++ gsFlat gs ++ ['.', c1, c2])) := by
  intro c hc
  rcases List.mem_cons.mp hc with rfl | hc
  · decide
  rcases List.mem_append.mp hc with hc | hc
  · rcases List.mem_append.mp hc with hc | hc
    · exact digit_not_ws (hd c hc)
    · obtain ⟨g, hgm, hcg⟩ := List.mem_flatMap.mp hc
      rcases List.mem_cons.mp hcg with rfl | hcg
      · decide
      · exact digit_not_ws ((hg g hgm).2 c hcg)
  rcases List.mem_cons.mp hc with rfl | hc
  · decide
  rcases List.mem_cons.mp hc with rfl | hc
  · exact digit_not_ws h1
  rcases List.mem_cons.mp hc with rfl | hc
  · exact digit_not_ws h2
  cases hc

theorem filter_value_dots {c1 c2 : Char} (h1 : c1.isDigit = true)
    (h2 : c2.isDigit = true) :
    (['.', c1, c2]).filter (fun c => c.isDigit || c = '.') = ['.', c1, c2] := by
  simp [List.filter_cons, h1, h2]

/-- Parsing a well-formed dollar amount with comma-grouped thousands and
exactly two decimal digits, followed by an arbitrary suffix: the match
found at position 0 is exactly the amount, and its value is
`dollars * 100 + cents`. -/
theorem usdToCents_dollar_grouped {d0 : List Char} {gs : List (List Char)}
    {c1 c2 : Char} (suffix : List Char) (hne : d0 ≠ []) (hlen : d0.length ≤ 3)
    (hd : AllDigits d0) (hg : ValidGroups gs) (h1 : c1.isDigit = true)
    (h2 : c2.isDigit = true) :
    usdToCents (some ⟨'$' :: (d0 ++ gsFlat gs ++ '.' :: c1 :: c2 :: suffix)⟩) =
      digitsToNat (d0 ++ gs.flatten) * 100 + digitsToNat [c1, c2] := by
  have hNoWs : NoWs ('$' :: (d0 ++ gsFlat gs ++ ['.', c1, c2])) :=
    noWs_amount hd hg h1 h2
  have hflatlen := gsFlat_length hg
  obtain ⟨a, d0', rfl⟩ : ∃ a d0', d0 = a :: d0' := by
    cases d0 with
    | nil => exact absurd rfl hne
    | cons a d0' => exact ⟨a, d0', rfl⟩
  have ha : a.isDigit = true := hd a (by simp)
  have hs : jsTrim (collapseWs
      ((⟨'$' :: ((a :: d0') ++ gsFlat gs ++ '.' :: c1 :: c2 :: suffix)⟩ :
        String).toList)) =
      ('$' :: ((a :: d0') ++ gsFlat gs ++ ['.', c1, c2])) ++
        trimEndWs (collapseWsAux false suffix) := by
    have htl : (⟨'$' :: ((a :: d0') ++ gsFlat gs ++ '.' :: c1 :: c2 ::
        suffix)⟩ : String).toList =
        ('$' :: ((a :: d0') ++ gsFlat gs ++ ['.', c1, c2])) ++ suffix := by
      simp [String.toList]
    rw [htl, jsTrim_collapse_append (by simp) hNoWs suffix]
  have hnum : matchNum ((a :: d0') ++ gsFlat gs ++ '.' :: c1 :: c2 ::
      trimEndWs (collapseWsAux false suffix)) =
      some ((a :: d0').length + (4 * gs.length + 3)) :=
    matchNum_grouped hne hlen hd hg h1 h2 _
  have haft : afterDollar ((a :: d0') ++ gsFlat gs ++ '.' :: c1 :: c2 ::
      trimEndWs (collapseWsAux false suffix)) =
      some ((a :: d0').length + (4 * gs.length + 3)) := by
    rw [show (a :: d0') ++ gsFlat gs ++ '.' :: c1 :: c2 ::
        trimEndWs (collapseWsAux false suffix) =
        a :: (d0' ++ gsFlat gs ++ '.' :: c1 :: c2 ::
          trimEndWs (collapseWsAux false suffix)) by simp]
    rw [afterDollar_digit_head ha]
    rw [show a :: (d0' ++ gsFlat gs ++ '.' :: c1 :: c2 ::
        trimEndWs (collapseWsAux false suffix)) =
        (a :: d0') ++ gsFlat gs ++ '.' :: c1 :: c2 ::
          trimEndWs (collapseWsAux false suffix) by simp]
    exact hnum
  have hAt : matchAt ('$' :: ((a :: d0') ++ gsFlat gs ++ '.' :: c1 :: c2 ::
      trimEndWs (collapseWsAux false suffix))) =
      some ((a :: d0').length + (4 * gs.length + 3) + 1) := matchAt_dollar haft
  have hsearch : regexSearch ('$' :: ((a :: d0') ++ gsFlat gs ++
      '.' :: c1 :: c2 :: trimEndWs (collapseWsAux false suffix))) =
      some ('$' :: ((a :: d0') ++ gsFlat gs ++ ['.', c1, c2])) := by
    rw [regexSearch_cons hAt]
    congr 1
    rw [show '$' :: ((a :: d0') ++ gsFlat gs ++ '.' :: c1 :: c2 ::
        trimEndWs (collapseWsAux false suffix)) =
        ('$' :: ((a :: d0') ++ gsFlat gs ++ ['.', c1, c2])) ++
          trimEndWs (collapseWsAux false suffix) by simp]
    apply List.take_left'
    simp [hflatlen]
    omega
  have hm : regexSearch (jsTrim (collapseWs
      ((⟨'$' :: ((a :: d0') ++ gsFlat gs ++ '.' :: c1 :: c2 :: suffix)⟩ :
        String).toList))) =
      some ('$' :: ((a :: d0') ++ gsFlat gs ++ ['.', c1, c2])) := by
    rw [hs]
    rw [show ('$' :: ((a :: d0') ++ gsFlat gs ++ ['.', c1, c2])) ++
        trimEndWs (collapseWsAux false suffix) =
        '$' :: ((a :: d0') ++ gsFlat gs ++ '.' :: c1 :: c2 ::
          trimEndWs (collapseWsAux false suffix)) by simp]
    exact hsearch
  rw [usdToCents_some_eq (mk_cons_ne_empty _ _) hm]
  have hcongr : extractValue ('$' :: ((a :: d0') ++ gsFlat gs ++
      ['.', c1, c2])) =
      extractValue (((a :: d0') ++ gs.flatten) ++ ['.', c1, c2]) := by
    apply extractValue_congr
    simp [List.filter_cons, List.filter_append, filter_value_digits hd,
      filter_value_flat hg, filter_value_dots h1 h2,
      filter_value_digits (allDigits_flatten hg)]
  rw [hcongr]
  exact extractValue_amount
    (fun c hc => by
      rcases List.mem_append.mp hc with h | h
      · exact hd c h
      · exact allDigits_flatten hg c h) h1 h2

/-- Parsing a plain decimal string `ds.c1c2` (no dollar sign, no commas),
as produced by `centsToUSD`. -/
theorem usdToCents_plain_decimal {ds : List Char} {c1 c2 : Char}
    (hne : ds ≠ []) (hd : AllDigits ds) (h1 : c1.isDigit = true)
    (h2 : c2.isDigit = true) :
    usdToCents (some ⟨ds ++ ['.', c1, c2]⟩) =
      digitsToNat ds * 100 + digitsToNat [c1, c2] := by
  obtain ⟨a, ds', rfl⟩ : ∃ a ds', ds = a :: ds' := by
    cases ds with
    | nil => exact absurd rfl hne
    | cons a ds' => exact ⟨a, ds', rfl⟩
  have ha : a.isDigit = true := hd a (by simp)
  have hNoWs : NoWs ((a :: ds') ++ ['.', c1, c2]) := by
    intro c hc
    rcases List.mem_append.mp hc with h | h
    · exact digit_not_ws (hd c h)
    · simp only [List.mem_cons, List.mem_singleton, List.not_mem_nil,
        or_false] at h
      rcases h with rfl | rfl | rfl
      · decide
      · exact digit_not_ws h1
      · exact digit_not_ws h2
  have hs : jsTrim (collapseWs
      ((⟨(a :: ds') ++ ['.', c1, c2]⟩ : String).toList)) =
      (a :: ds') ++ ['.', c1, c2] := jsTrim_collapse_of_noWs hNoWs
  have hnum : matchNum ((a :: ds') ++ ['.', c1, c2]) =
      some ((a :: ds').length + 3) := matchNum_plain hne hd h1 h2 []
  have haft : afterDollar ((a :: ds') ++ ['.', c1, c2]) =
      some ((a :: ds').length + 3) := by
    rw [show (a :: ds') ++ ['.', c1, c2] = a :: (ds' ++ ['.', c1, c2])
      by simp]
    rw [afterDollar_digit_head ha]
    rw [show a :: (ds' ++ ['.', c1, c2]) = (a :: ds') ++ ['.', c1, c2]
      by simp]
    exact hnum
  have hAt : matchAt (a :: (ds' ++ ['.', c1, c2])) =
      some ((a :: ds').length + 3) := by
    rw [matchAt_not_dollar (digit_ne_dollar ha)]
    rw [show a :: (ds' ++ ['.', c1, c2]) = (a :: ds') ++ ['.', c1, c2]
      by simp]
    exact haft
  have hsearch : regexSearch ((a :: ds') ++ ['.', c1, c2]) =
      some ((a :: ds') ++ ['.', c1, c2]) := by
    rw [show (a :: ds') ++ ['.', c1, c2] = a :: (ds' ++ ['.', c1, c2])
      by simp]
    rw [regexSearch_cons hAt]
    congr 1
    apply List.take_of_length_le
    simp
  rw [usdToCents_some_eq (by
      rw [show ((a :: ds') ++ ['.', c1, c2] : List Char) =
        a :: (ds' ++ ['.', c1, c2]) by simp]
      exact mk_cons_ne_empty _ _)
    (by rw [hs]; exact hsearch)]
  exact extractValue_amount hd h1 h2

theorem usdToCents_no_match {v : String}
    (hm : regexSearch (jsTrim (collapseWs v.toList)) = none) :
    usdToCents (some v) = 0 := by
  by_cases hv : v = ""
  · rw [hv]
    rfl
  · show (if v = "" then 0
      else match regexSearch (jsTrim (collapseWs v.toList)) with
        | none => 0
        | some matched => extractValue matched) = 0
    rw [if_neg hv, hm]

/-! ### Decimal printing: `natToDecimal` and `digitsToNat` -/

theorem digitChar_isDigit {r : Nat} (h : r < 10) :
    (digitChar r).isDigit = true := by
  interval_cases r <;> decide

theorem digitChar_val {r : Nat} (h : r < 10) :
    (digitChar r).toNat - 48 = r := by
  interval_cases r <;> decide

theorem foldl_digits (l : List Char) (a : Nat) :
    l.foldl (fun a c => a * 10 + (c.toNat - 48)) a =
      a * 10 ^ l.length + digitsToNat l := by
  induction l generalizing a with
  | nil => simp [digitsToNat]
  | cons c l ih =>
      show List.foldl _ (a * 10 + (c.toNat - 48)) l = _
      rw [ih]
      have h2 : digitsToNat (c :: l) =
          (c.toNat - 48) * 10 ^ l.length + digitsToNat l := by
        show List.foldl _ (0 * 10 + (c.toNat - 48)) l = _
        rw [ih]
        ring
      rw [h2, List.length_cons]
      ring

theorem natToDecimalAux_correct :
    ∀ (fuel n : Nat) (acc : List Char), n ≤ fuel →
      digitsToNat (natToDecimalAux fuel n acc) =
        n * 10 ^ acc.length + digitsToNat acc := by
  intro fuel
  induction fuel with
  | zero =>
      intro n acc h
      interval_cases n
      simp [natToDecimalAux]
  | succ fuel ih =>
      intro n acc h
      by_cases hn : n = 0
      · subst hn
        simp [natToDecimalAux]
      · have hstep : natToDecimalAux (fuel + 1) n acc =
            natToDecimalAux fuel (n / 10) (digitChar (n % 10) :: acc) := by
          show (if n = 0 then acc else _) = _
          rw [if_neg hn]
        rw [hstep]
        have hlt : n / 10 < n := Nat.div_lt_self (Nat.pos_of_ne_zero hn)
          (by norm_num)
        rw [ih (n / 10) _ (by omega)]
        have hdc : digitsToNat (digitChar (n % 10) :: acc) =
            (n % 10) * 10 ^ acc.length + digitsToNat acc := by
          show List.foldl _ (0 * 10 + ((digitChar (n % 10)).toNat - 48)) acc = _
          rw [foldl_digits, digitChar_val (Nat.mod_lt n (by norm_num))]
          ring
        rw [hdc, List.length_cons]
        have hdm := Nat.div_add_mod n 10
        conv_rhs => rw [← hdm]
        ring

theorem natToDecimalAux_digits :
    ∀ (fuel n : Nat) (acc : List Char), AllDigits acc →
      AllDigits (natToDecimalAux fuel n acc) := by
  intro fuel
  induction fuel with
  | zero => intro n acc h; exact h
  | succ fuel ih =>
      intro n acc h
      by_cases hn : n = 0
      · subst hn; exact h
      · have hstep : natToDecimalAux (fuel + 1) n acc =
            natToDecimalAux fuel (n / 10) (digitChar (n % 10) :: acc) := by
          show (if n = 0 then acc else _) = _
          rw [if_neg hn]
        rw [hstep]
        refine ih _ _ ?_
        intro c hc
        rcases List.mem_cons.mp hc with rfl | hc
        · exact digitChar_isDigit (Nat.mod_lt n (by norm_num))
        · exact h c hc

theorem natToDecimalAux_ne_nil :
    ∀ (fuel n : Nat) (acc : List Char), acc ≠ [] →
      natToDecimalAux fuel n acc ≠ [] := by
  intro fuel
  induction fuel with
  | zero => intro n acc h; exact h
  | succ fuel ih =>
      intro n acc h
      by_cases hn : n = 0
      · subst hn; exact h
      · have hstep : natToDecimalAux (fuel + 1) n acc =
            natToDecimalAux fuel (n / 10) (digitChar (n % 10) :: acc) := by
          show (if n = 0 then acc else _) = _
          rw [if_neg hn]
        rw [hstep]
        exact ih _ _ (by simp)

theorem natToDecimal_digits (n : Nat) : AllDigits (natToDecimal n) := by
  unfold natToDecimal
  by_cases hn : n = 0
  · subst hn
    intro c hc
    simp only [if_pos] at hc
    rcases List.mem_singleton.mp hc with rfl
    decide
  · rw [if_neg hn]
    exact natToDecimalAux_digits n n [] (by intro c hc; cases hc)

theorem natToDecimal_ne_nil (n : Nat) : natToDecimal n ≠ [] := by
  unfold natToDecimal
  by_cases hn : n = 0
  · subst hn; simp
  · rw [if_neg hn]
    obtain ⟨m, rfl⟩ : ∃ m, n = m + 1 := ⟨n - 1, by omega⟩
    have hstep : natToDecimalAux (m + 1) (m + 1) [] =
        natToDecimalAux m ((m + 1) / 10) (digitChar ((m + 1) % 10) :: []) := by
      show (if m + 1 = 0 then ([] : List Char) else _) = _
      rw [if_neg (by omega)]
    rw [hstep]
    exact natToDecimalAux_ne_nil m _ _ (by simp)

theorem digitsToNat_natToDecimal (n : Nat) :
    digitsToNat (natToDecimal n) = n := by
  unfold natToDecimal
  by_cases hn : n = 0
  · subst hn; decide
  · rw [if_neg hn, natToDecimalAux_correct n n [] (Nat.le_refl n)]
    simp [digitsToNat]

theorem digitsToNat_pad2 {r : Nat} (h : r < 100) :
    digitsToNat (pad2 r) = r := by
  show (0 * 10 + ((digitChar (r / 10)).toNat - 48)) * 10 +
    ((digitChar (r % 10)).toNat - 48) = r
  rw [digitChar_val (by omega), digitChar_val (by omega)]
  omega

/-! ### Quantity-prefix parsing lemmas -/

theorem takeWhile_jsWs_nil {l : List Char}
    (h : ∀ c, l.head? = some c → jsWs c = false) :
    l.takeWhile jsWs = [] := by
  cases l with
  | nil => rfl
  | cons c r => exact List.takeWhile_cons_of_neg (by simp [h c rfl])

theorem dropWhile_jsWs_self {l : List Char}
    (h : ∀ c, l.head? = some c → jsWs c = false) :
    l.dropWhile jsWs = l := by
  cases l with
  | nil => rfl
  | cons c r => exact List.dropWhile_cons_of_neg (by simp [h c rfl])

theorem qtyMatch_canonical {nds : List Char} (hne : nds ≠ [])
    (hd : AllDigits nds) {sepChars rest : List Char}
    (hsep : qtySep (sepChars ++ ' ' :: rest) = some (' ' :: rest))
    (hsephead : ∀ c, sepChars.head? = some c → jsWs c = false)
    (hsepne : sepChars ≠ [])
    (hrest : rest.takeWhile jsWs = []) :
    qtyMatch (nds ++ ' ' :: (sepChars ++ ' ' :: rest)) = some (nds, rest) := by
  have hrest' : ∀ c, rest.head? = some c → jsWs c = false := by
    intro c hc
    cases rest with
    | nil => cases hc
    | cons x r =>
        rw [List.head?_cons, Option.some.injEq] at hc
        subst hc
        cases hx : jsWs x with
        | false => rfl
        | true =>
            rw [List.takeWhile_cons_of_pos hx] at hrest
            cases hrest
  have hsephead' : ∀ c, (sepChars ++ ' ' :: rest).head? = some c →
      jsWs c = false := by
    intro c hc
    cases sepChars with
    | nil => exact absurd rfl hsepne
    | cons s ss =>
        rw [List.cons_append, List.head?_cons, Option.some.injEq] at hc
        subst hc
        exact hsephead s rfl
  have h0 : nds.isEmpty = false := by
    cases nds with
    | nil => exact absurd rfl hne
    | cons a l => rfl
  have h1 : (nds ++ ' ' :: (sepChars ++ ' ' :: rest)).takeWhile Char.isDigit =
      nds := takeWhile_append_stop hd (by decide) _
  have h2 : (nds ++ ' ' :: (sepChars ++ ' ' :: rest)).dropWhile Char.isDigit =
      ' ' :: (sepChars ++ ' ' :: rest) :=
    dropWhile_append_stop hd (by decide) _
  have h3 : (' ' :: (sepChars ++ ' ' :: rest)).takeWhile jsWs = [' '] := by
    rw [List.takeWhile_cons_of_pos (by decide),
      takeWhile_jsWs_nil hsephead']
  have h4 : (' ' :: (sepChars ++ ' ' :: rest)).dropWhile jsWs =
      sepChars ++ ' ' :: rest := by
    rw [List.dropWhile_cons_of_pos (by decide),
      dropWhile_jsWs_self hsephead']
  have h5 : (' ' :: rest).takeWhile jsWs = [' '] := by
    rw [List.takeWhile_cons_of_pos (by decide), hrest]
  have h6 : (' ' :: rest).dropWhile jsWs = rest := by
    rw [List.dropWhile_cons_of_pos (by decide),
      dropWhile_jsWs_self hrest']
  simp only [qtyMatch, h1, h0, h2, h3, h4, h5, h6, hsep, Bool.false_eq_true,
    if_false, List.isEmpty_cons]

theorem parseQtyName_canonical {nds : List Char} (hne : nds ≠ [])
    (hd : AllDigits nds) (hpos : 0 < digitsToNat nds) {sep rest : List Char}
    (hsep : ValidSep sep) (hrest : rest.takeWhile jsWs = []) :
    parseQtyName ⟨nds ++ ' ' :: (sep ++ ' ' :: rest)⟩ =
      (digitsToNat nds, ⟨rest⟩) := by
  have hqm : qtyMatch (nds ++ ' ' :: (sep ++ ' ' :: rest)) =
      some (nds, rest) := by
    rcases hsep with rfl | rfl | rfl | rfl | rfl | rfl <;>
      refine qtyMatch_canonical hne hd (by simp [qtySep]) ?_ (by simp) hrest <;>
        (intro c hc; injection hc with hc; subst hc; decide)
  show (match qtyMatch (nds ++ ' ' :: (sep ++ ' ' :: rest)) with
    | none => (1, (⟨nds ++ ' ' :: (sep ++ ' ' :: rest)⟩ : String))
    | some (ds, remainder) =>
        let n := digitsToNat ds
        (if n = 0 then 1 else n, ⟨remainder⟩)) = _
  rw [hqm]
  simp only [if_neg (by omega : ¬ digitsToNat nds = 0)]

/-! ### waitUntil lemmas -/

theorem waitUntilAux_ok (checks : Nat → Except Unit Bool) (t iv : Nat)
    (hiv : 0 < iv) :
    ∀ (d k : Nat),
      (∀ j, k ≤ j → j < k + d → checkPassed (checks j) = false ∧ j * iv ≤ t) →
      checkPassed (checks (k + d)) = true →
      waitUntilAux checks t iv hiv k = Except.ok true := by
  intro d
  induction d with
  | zero =>
      intro k h hk
      rw [waitUntilAux]
      simp only [Nat.add_zero] at hk
      rw [hk]
      simp
  | succ d ih =>
      intro k h hk
      rw [waitUntilAux]
      obtain ⟨hc, ht⟩ := h k (Nat.le_refl k) (by omega)
      rw [hc]
      simp only [Bool.false_eq_true, if_false]
      rw [if_neg (by omega : ¬ t < k * iv)]
      refine ih (k + 1) (fun j hj1 hj2 => h j (by omega) (by omega)) ?_
      rw [show k + 1 + d = k + (d + 1) by omega]
      exact hk

theorem waitUntilAux_timeout (checks : Nat → Except Unit Bool) (t iv : Nat)
    (hiv : 0 < iv) (hnever : ∀ j, checkPassed (checks j) = false) :
    ∀ (n k : Nat), t / iv + 1 - k ≤ n →
      waitUntilAux checks t iv hiv k =
        Except.error "Timed out waiting for condition" := by
  intro n
  induction n with
  | zero =>
      intro k hk
      rw [waitUntilAux, hnever k]
      simp only [Bool.false_eq_true, if_false]
      rw [if_pos ((Nat.div_lt_iff_lt_mul hiv).mp (by omega))]
  | succ n ih =>
      intro k hk
      rw [waitUntilAux, hnever k]
      simp only [Bool.false_eq_true, if_false]
      by_cases ht : t < k * iv
      · rw [if_pos ht]
      · rw [if_neg ht]
        refine ih (k + 1) ?_
        have hkd : k ≤ t / iv := (Nat.le_div_iff_mul_le hiv).mpr (by omega)
        omega

theorem waitUntilAux_congr (checks checks' : Nat → Except Unit Bool)
    (t iv : Nat) (hiv : 0 < iv)
    (h : ∀ j, checkPassed (checks j) = checkPassed (checks' j)) :
    ∀ (n k : Nat), t / iv + 1 - k ≤ n →
      waitUntilAux checks t iv hiv k = waitUntilAux checks' t iv hiv k := by
  intro n
  induction n with
  | zero =>
      intro k hk
      have htk : t < k * iv := (Nat.div_lt_iff_lt_mul hiv).mp (by omega)
      conv_lhs => rw [waitUntilAux]
      conv_rhs => rw [waitUntilAux]
      rw [h k]
      cases hc : checkPassed (checks' k) with
      | true => rfl
      | false => simp only [Bool.false_eq_true, if_false, if_pos htk]
  | succ n ih =>
      intro k hk
      conv_lhs => rw [waitUntilAux]
      conv_rhs => rw [waitUntilAux]
      rw [h k]
      cases hc : checkPassed (checks' k) with
      | true => rfl
      | false =>
          simp only [Bool.false_eq_true, if_false]
          by_cases ht : t < k * iv
          · simp only [if_pos ht]
          · simp only [if_neg ht]
            refine ih (k + 1) ?_
            have hkd : k ≤ t / iv := (Nat.le_div_iff_mul_le hiv).mpr (by omega)
            omega

theorem waitUntilAux_error_msg (checks : Nat → Except Unit Bool) (t iv : Nat)
    (hiv : 0 < iv) :
    ∀ (n k : Nat) (e : String), t / iv + 1 - k ≤ n →
      waitUntilAux checks t iv hiv k = Except.error e →
      e = "Timed out waiting for condition" := by
  intro n
  induction n with
  | zero =>
      intro k e hk h
      rw [waitUntilAux] at h
      by_cases hc : checkPassed (checks k) = true
      · rw [if_pos hc] at h
        cases h
      · rw [if_neg hc,
          if_pos ((Nat.div_lt_iff_lt_mul hiv).mp (by omega))] at h
        injection h with h2
        exact h2.symm
  | succ n ih =>
      intro k e hk h
      rw [waitUntilAux] at h
      by_cases hc : checkPassed (checks k) = true
      · rw [if_pos hc] at h
        cases h
      · rw [if_neg hc] at h
        by_cases ht : t < k * iv
        · rw [if_pos ht] at h
          injection h with h2
          exact h2.symm
        · rw [if_neg ht] at h
          refine ih (k + 1) e ?_ h
          have hkd : k ≤ t / iv := (Nat.le_div_iff_mul_le hiv).mpr (by omega)
          omega

/-! ### processShipment lemmas -/

theorem centsToUSD_zero : centsToUSD 0 = "0.00" := by decide

theorem processItems_afterReturns_zero (d st : String)
    (items : List (String × String)) :
    (processItems d st true items).2.2 = 0 := by
  induction items with
  | nil => rfl
  | cons item rest ih => simp [processItems, ih]

theorem processItems_afterReturns_total (d st : String)
    (items : List (String × String)) :
    (processItems d st false items).2.2 = (processItems d st false items).2.1 := by
  induction items with
  | nil => rfl
  | cons item rest ih => simp [processItems, ih]

theorem processItems_row (d st : String) (ret : Bool) :
    ∀ (items : List (String × String)) (i : Nat) (item : String × String),
      items[i]? = some item →
      (processItems d st ret items).1[i]? =
        some (itemRow d st ret item.1 item.2) := by
  intro items
  induction items with
  | nil =>
      intro i item h
      simp at h
  | cons it rest ih =>
      intro i item h
      cases i with
      | zero =>
          simp only [List.getElem?_cons_zero, Option.some.injEq] at h
          subst h
          simp [processItems]
      | succ j =>
          simp only [List.getElem?_cons_succ] at h
          simp only [processItems, List.getElem?_cons_succ]
          exact ih j item h

theorem itemRow_fields (d st nm pr : String) (ret : Bool) :
    (itemRow d st ret nm pr)[5]? =
      some (centsToUSD (if ret then 0 else
        usdToCents (some pr) * (parseQtyName (articleNameOf nm)).1)) ∧
    (itemRow d st ret nm pr)[4]? = some (centsToUSD (usdToCents (some pr))) :=
  ⟨rfl, rfl⟩

/-! ### CSV round-trip lemmas -/

theorem parseField_esc (s : List Char) {rest : List Char}
    (hrest : ∀ c, rest.head? = some c → c ≠ '"') :
    parseField (escQuotes s ++ '"' :: rest) = some (s, rest) := by
  induction s with
  | nil =>
      show parseField ('"' :: rest) = some ([], rest)
      cases rest with
      | nil => rfl
      | cons c r2 =>
          have hc : c ≠ '"' := hrest c rfl
          cases c2 : c == '"' with
          | true => exact absurd (by simpa using c2) hc
          | false => simp [parseField, hc]
  | cons a s ih =>
      by_cases ha : a = '"'
      · subst ha
        rw [show escQuotes ('"' :: s) ++ '"' :: rest =
          '"' :: '"' :: (escQuotes s ++ '"' :: rest) by
            simp [escQuotes]]
        show (parseField (escQuotes s ++ '"' :: rest)).map
          (fun p => ('"' :: p.1, p.2)) = _
        rw [ih]
        rfl
      · rw [show escQuotes (a :: s) ++ '"' :: rest =
          a :: (escQuotes s ++ '"' :: rest) by simp [escQuotes, ha]]
        have hstep : parseField (a :: (escQuotes s ++ '"' :: rest)) =
            (parseField (escQuotes s ++ '"' :: rest)).map
              (fun p => (a :: p.1, p.2)) := by
          cases hsq : escQuotes s ++ '"' :: rest with
          | nil => simp at hsq
          | cons b r2 => simp [parseField, ha]
        rw [hstep, ih]
        rfl

theorem parseFieldsAux_cons (fuel : Nat) (rest : List Char) :
    parseFieldsAux (fuel + 1) ('"' :: rest) =
      match parseField rest with
      | none => none
      | some (content, r) =>
          match r with
          | ';' :: r2 =>
              match parseFieldsAux fuel r2 with
              | some fs => some (String.mk content :: fs)
              | none => none
          | ['\n'] => some [String.mk content]
          | _ => none := rfl

theorem parseFieldsAux_row :
    ∀ (fields : List String) (fuel : Nat), fields ≠ [] →
      fields.length ≤ fuel →
      parseFieldsAux fuel (joinSemi (fields.map quoteField) ++ ['\n']) =
        some fields := by
  intro fields
  induction fields with
  | nil => intro fuel h; exact absurd rfl h
  | cons f fs ih =>
      intro fuel hne hlen
      obtain ⟨m, rfl⟩ : ∃ m, fuel = m + 1 :=
        ⟨fuel - 1, by simp at hlen; omega⟩
      have hnl : ∀ c : Char, (['\n'] : List Char).head? = some c → c ≠ '"' := by
        intro c hc
        injection hc with hc
        subst hc
        decide
      cases fs with
      | nil =>
          show parseFieldsAux (m + 1)
            (('"' :: escQuotes f.toList ++ ['"']) ++ ['\n']) = some [f]
          rw [show ('"' :: escQuotes f.toList ++ ['"']) ++ ['\n'] =
            '"' :: (escQuotes f.toList ++ '"' :: ['\n']) by simp]
          rw [parseFieldsAux_cons, parseField_esc f.toList hnl]
          show some [String.mk f.toList] = some [f]
          rfl
      | cons g gs =>
          have hsc : ∀ c : Char,
              (';' :: (joinSemi (quoteField g :: gs.map quoteField) ++
                ['\n'])).head? = some c → c ≠ '"' := by
            intro c hc
            injection hc with hc
            subst hc
            decide
          show parseFieldsAux (m + 1)
            (joinSemi (quoteField f :: quoteField g ::
              gs.map quoteField) ++ ['\n']) = some (f :: g :: gs)
          rw [show joinSemi (quoteField f :: quoteField g ::
              gs.map quoteField) =
            quoteField f ++ ';' :: joinSemi (quoteField g ::
              gs.map quoteField) from rfl]
          rw [show (quoteField f ++ ';' :: joinSemi (quoteField g ::
              gs.map quoteField)) ++ ['\n'] =
            '"' :: (escQuotes f.toList ++ '"' ::
              (';' :: (joinSemi (quoteField g :: gs.map quoteField) ++
                ['\n']))) by simp [quoteField]]
          rw [parseFieldsAux_cons, parseField_esc f.toList hsc]
          have hih : parseFieldsAux m (joinSemi ((g :: gs).map quoteField) ++
              ['\n']) = some (g :: gs) :=
            ih m (by simp) (by simp at hlen ⊢; omega)
          simp only [List.map_cons] at hih
          show (match parseFieldsAux m (joinSemi (quoteField g ::
              gs.map quoteField) ++ ['\n']) with
            | some fs => some (String.mk f.toList :: fs)
            | none => none) = some (f :: g :: gs)
          rw [hih]
          rfl

theorem joinSemi_len_bound :
    ∀ fields : List String,
      fields.length ≤ (joinSemi (fields.map quoteField)).length + 1 := by
  intro fields
  induction fields with
  | nil => simp
  | cons f fs ih =>
      cases fs with
      | nil => simp
      | cons g gs =>
          show (f :: g :: gs).length ≤
            (quoteField f ++ ';' :: joinSemi ((g :: gs).map quoteField)).length + 1
          simp only [List.length_cons, List.length_append] at ih ⊢
          omega

theorem parseCSVLine_csvRow {fields : List String} (hne : fields ≠ []) :
    parseCSVLine (csvRow fields) = some fields := by
  show parseFieldsAux ((joinSemi (fields.map quoteField) ++ ['\n']).length + 1)
    (joinSemi (fields.map quoteField) ++ ['\n']) = some fields
  refine parseFieldsAux_row fields _ hne ?_
  have := joinSemi_len_bound fields
  simp only [List.length_append]
  omega

theorem processItems_row_length (d st : String) (ret : Bool) :
    ∀ (items : List (String × String)),
      ∀ row ∈ (processItems d st ret items).1, row.length = 7 := by
  intro items
  induction items with
  | nil => intro row h; simp [processItems] at h
  | cons it rest ih =>
      intro row h
      simp only [processItems, List.mem_cons] at h
      rcases h with rfl | h
      · rfl
      · exact ih row h

/-! ### Claims -/

/-- Claim C1: `usdToCents` parses a US currency string into integer cents:
`"$1,234.56"` yields `123456`; in general, for any string carrying a
dollar amount with comma-grouped thousands and exactly two decimal digits
(the amount leftmost, what follows it arbitrary — the regex search takes
the leftmost match), the result is `dollars * 100 + cents`, a
non-negative integer (`Nat`); and the result is 0 for a null, empty, or
non-matching input. -/
theorem claim_usdToCents_parses :
    usdToCents (some "$1,234.56") = 123456 ∧
    (∀ (d0 : List Char) (gs : List (List Char)) (c1 c2 : Char)
        (suffix : List Char), d0 ≠ [] → d0.length ≤ 3 → AllDigits d0 →
        ValidGroups gs → c1.isDigit = true → c2.isDigit = true →
        usdToCents
            (some ⟨'$' :: (d0 ++ gsFlat gs ++ '.' :: c1 :: c2 :: suffix)⟩) =
          digitsToNat (d0 ++ gs.flatten) * 100 + digitsToNat [c1, c2]) ∧
    usdToCents none = 0 ∧
    usdToCents (some "") = 0 ∧
    (∀ v : String, regexSearch (jsTrim (collapseWs v.toList)) = none →
      usdToCents (some v) = 0) := by
  refine ⟨by decide, ?_, rfl, by decide, ?_⟩
  · intro d0 gs c1 c2 suffix h1 h2 h3 h4 h5 h6
    exact usdToCents_dollar_grouped suffix h1 h2 h3 h4 h5 h6
  · intro v hm
    exact usdToCents_no_match hm

theorem claim_usdToCents_parses_witness :
    usdToCents (some "$12,345.67") = 1234567 ∧
    usdToCents (some "total cost") = 0 := by
  constructor
  · have h := claim_usdToCents_parses.2.1 ['1', '2'] [['3', '4', '5']] '6' '7'
      [] (by decide) (by decide) (by unfold AllDigits; decide)
      (by unfold ValidGroups AllDigits; decide) (by decide) (by decide)
    have hs : (⟨'$' :: (['1', '2'] ++ gsFlat [['3', '4', '5']] ++
        '.' :: '6' :: '7' :: [])⟩ : String) = "$12,345.67" := by decide
    rw [hs] at h
    rw [h]
    decide
  · exact claim_usdToCents_parses.2.2.2.2 "total cost" (by decide)

/-- Claim C3 (counterexample): the claim fails when `<rest>` itself begins
with whitespace.  `"2 x  Widget"` (two spaces) is of the form
`"<n> x <rest>"` with `rest = " Widget"`, but the greedy `\s+` in the
regex swallows all whitespace after the separator, so the extracted name
is `"Widget"`, not `" Widget"`. -/
theorem claim_qty_parse_counterexample :
    parseQtyName "2 x  Widget" = (2, "Widget") ∧
    parseQtyName "2 x  Widget" ≠ (2, " Widget") := by
  constructor
  · decide
  · decide

/-- Claim C3 (amended): for every name of the form `"<n> of <rest>"` or
`"<n> x <rest>"` (separator case-insensitive, `n` a positive decimal
integer, and `<rest>` not itself beginning with whitespace), the
extracted count is `n` and the extracted name is `<rest>`; `"2 x Widget"`
yields count 2 and name `"Widget"`; a name the anchored regex does not
match is returned unchanged with count 1. -/
theorem claim_qty_parse :
    parseQtyName "2 x Widget" = (2, "Widget") ∧
    (∀ (nds sep rest : List Char), nds ≠ [] → AllDigits nds →
        0 < digitsToNat nds → ValidSep sep → rest.takeWhile jsWs = [] →
        parseQtyName ⟨nds ++ ' ' :: (sep ++ ' ' :: rest)⟩ =
          (digitsToNat nds, ⟨rest⟩)) ∧
    (∀ name : String, qtyMatch name.toList = none →
        parseQtyName name = (1, name)) := by
  refine ⟨by decide, ?_, ?_⟩
  · intro nds sep rest h1 h2 h3 h4 h5
    exact parseQtyName_canonical h1 h2 h3 h4 h5
  · intro name hqm
    show (match qtyMatch name.toList with
      | none => (1, name)
      | some (ds, remainder) =>
          let n := digitsToNat ds
          (if n = 0 then 1 else n, (⟨remainder⟩ : String))) = _
    rw [hqm]

theorem claim_qty_parse_witness :
    parseQtyName "10 OF Widget Pack" = (10, "Widget Pack") ∧
    parseQtyName "no prefix here" = (1, "no prefix here") := by
  constructor
  · have h := claim_qty_parse.2.1 ['1', '0'] ['O', 'F'] "Widget Pack".toList
      (by decide) (by unfold AllDigits; decide) (by decide)
      (by unfold ValidSep; decide) (by decide)
    have hs : (⟨['1', '0'] ++ ' ' :: (['O', 'F'] ++ ' ' ::
        "Widget Pack".toList)⟩ : String) = "10 OF Widget Pack" := by decide
    rw [hs] at h
    rw [h]
    decide
  · exact claim_qty_parse.2.2 "no prefix here" (by decide)

/-- Claim C4: every line written to the CSV consists of exactly 7 fields,
each enclosed in double quotes with embedded quotes doubled, joined by
`;` and terminated by a newline: the header literal is exactly the
7-field formatting of its column names, any 7-field row formatted by
`writeCSVRow` parses back to its fields (quoting and escaping are
faithful, shown for any non-empty field list), every item row and every
shipping row has exactly 7 fields, and data rows are written by
appending — the file only grows and its earlier content is preserved. -/
theorem claim_csv_format :
    (headerLine = csvRow headerFields ∧ headerFields.length = 7) ∧
    (∀ fields : List String, fields ≠ [] →
        parseCSVLine (csvRow fields) = some fields) ∧
    (∀ (orderDate shipmentStatus nm pr : String) (ret : Bool),
        (itemRow orderDate shipmentStatus ret nm pr).length = 7) ∧
    (∀ (orderDate rawStatus : String) (items : List (String × String)),
        ∀ row ∈ (processShipment orderDate rawStatus items).1,
          row.length = 7) ∧
    (∀ (orderDate : String) (p t : Int),
        ∀ row ∈ (calculateAndWriteShippingCosts orderDate p t).2,
          row.length = 7) ∧
    (∀ (file : List String) (row : String),
        appendRow file row = file ++ [row] ∧
        (appendRow file row).take file.length = file) := by
  refine ⟨⟨by decide, by decide⟩, ?_, ?_, ?_, ?_, ?_⟩
  · intro fields hne
    exact parseCSVLine_csvRow hne
  · intro d st nm pr ret
    rfl
  · intro d raw items row h
    exact processItems_row_length d (shipmentStatusOf raw)
      (returnedTest (shipmentStatusOf raw)) items row h
  · intro d p t row h
    simp only [calculateAndWriteShippingCosts] at h
    by_cases hc : (0 : Int) < if p - t < 0 then 0 else p - t
    · rw [if_pos hc] at h
      simp only [List.mem_singleton] at h
      subst h
      rfl
    · rw [if_neg hc] at h
      cases h
  · intro file row
    exact ⟨rfl, List.take_left file [row]⟩

theorem claim_csv_format_witness :
    parseCSVLine (csvRow ["a\"b", "x;y", "c", "d", "e", "f", "g"]) =
      some ["a\"b", "x;y", "c", "d", "e", "f", "g"] ∧
    (appendRow ["h1", "h2"] "r").take 2 = ["h1", "h2"] := by
  constructor
  · exact claim_csv_format.2.1 ["a\"b", "x;y", "c", "d", "e", "f", "g"]
      (by decide)
  · exact (claim_csv_format.2.2.2.2.2 ["h1", "h2"] "r").2

/-- Claim C10: `centsToUSD` and `usdToCents` form a round trip: for every
cent amount `c`, formatting it as a two-decimal string and re-parsing it
recovers `c`. -/
theorem claim_cents_roundtrip (c : Nat) :
    usdToCents (some (centsToUSD c)) = c := by
  have h1 : (digitChar (c % 100 / 10)).isDigit = true :=
    digitChar_isDigit (by omega)
  have h2 : (digitChar (c % 100 % 10)).isDigit = true :=
    digitChar_isDigit (by omega)
  have h := usdToCents_plain_decimal (natToDecimal_ne_nil (c / 100))
    (natToDecimal_digits (c / 100)) h1 h2
  have hstr : centsToUSD c =
      ⟨natToDecimal (c / 100) ++ ['.', digitChar (c % 100 / 10),
        digitChar (c % 100 % 10)]⟩ := rfl
  rw [hstr, h, digitsToNat_natToDecimal]
  have hp : digitsToNat [digitChar (c % 100 / 10), digitChar (c % 100 % 10)] =
      c % 100 := digitsToNat_pad2 (Nat.mod_lt c (by norm_num))
  rw [hp]
  omega

/-- Claim C2: the inferred shipping cost equals the order-level price in
cents minus the sum of the line-item totals in cents, clamped below at 0;
and the CSV `shipment` row — quantity `"1"`, name `"shipment"`, single
and total price both the formatted cost — is appended iff that clamped
cost is strictly positive. -/
theorem claim_shipping_cost :
    ∀ (orderDate : String) (p t : Int),
      (calculateAndWriteShippingCosts orderDate p t).1 = max (p - t) 0 ∧
      ((calculateAndWriteShippingCosts orderDate p t).2 ≠ [] ↔
        0 < (calculateAndWriteShippingCosts orderDate p t).1) ∧
      (0 < (calculateAndWriteShippingCosts orderDate p t).1 →
        (calculateAndWriteShippingCosts orderDate p t).2 =
          [[orderDate, "", "1", "shipment",
            centsToUSD (calculateAndWriteShippingCosts orderDate p t).1.toNat,
            centsToUSD (calculateAndWriteShippingCosts orderDate p t).1.toNat,
            ""]]) := by
  intro d p t
  simp only [calculateAndWriteShippingCosts]
  by_cases h : p - t < 0
  · simp only [if_pos h]
    refine ⟨(max_eq_right (le_of_lt h)).symm, ?_, ?_⟩
    · simp
    · intro h0
      exact absurd h0 (by omega)
  · simp only [if_neg h]
    refine ⟨(max_eq_left (by omega)).symm, ?_, ?_⟩
    · by_cases h2 : 0 < p - t
      · simp [if_pos h2]
      · simp [if_neg h2]
    · intro h0
      rw [if_pos h0]

theorem claim_shipping_cost_witness :
    (calculateAndWriteShippingCosts "Jan 5" 1000 800).2 =
      [["Jan 5", "", "1", "shipment", "2.00", "2.00", ""]] ∧
    ((calculateAndWriteShippingCosts "Jan 5" 800 1000).2 ≠ [] ↔
      0 < (calculateAndWriteShippingCosts "Jan 5" 800 1000).1) := by
  constructor
  · exact ((claim_shipping_cost "Jan 5" 1000 800).2.2 (by decide)).trans
      (by decide)
  · exact (claim_shipping_cost "Jan 5" 800 1000).2.1

/-- The year loop `for (let y = current; y >= 2000; y--)` produces the
years from `current` down to 2000 inclusive, in descending order. -/
theorem yearsDesc_spec : ∀ y : Nat, 2000 ≤ y →
    yearsDesc y = (List.range (y + 1 - 2000)).map (fun i => toString (y - i)) := by
  intro y hy
  induction y, hy using Nat.le_induction with
  | base =>
      rw [yearsDesc, dif_pos (by omega), yearsDesc, dif_neg (by omega)]
      simp [List.range_succ]
  | succ n hn ih =>
      rw [yearsDesc, dif_pos (by omega)]
      simp only [Nat.add_sub_cancel]
      rw [ih]
      have h1 : n + 1 + 1 - 2000 = (n + 1 - 2000) + 1 := by omega
      rw [h1, List.range_succ_eq_map]
      rw [List.map_cons, List.map_map]
      refine List.cons_eq_cons.mpr ⟨?_, ?_⟩
      · exact congrArg toString (by omega)
      · refine List.map_congr_left ?_
        intro a _
        simp only [Function.comp_apply]
        exact congrArg toString (by omega)

/-- Claim C5: `getYearsFromArg` returns the singleton of the positional
argument when one is present (any truthy string — the script does not
validate it further), and with no argument it returns the years from the
current year down to 2000 inclusive, in descending order, as strings
(empty when the current year is before 2000). -/
theorem claim_years_from_arg :
    (∀ (a : String) (cy : Nat), a ≠ "" →
        getYearsFromArg (some a) cy = [a]) ∧
    (∀ cy : Nat, 2000 ≤ cy →
        getYearsFromArg none cy =
          (List.range (cy + 1 - 2000)).map (fun i => toString (cy - i))) ∧
    (∀ cy : Nat, cy < 2000 → getYearsFromArg none cy = []) := by
  refine ⟨?_, ?_, ?_⟩
  · intro a cy ha
    simp [getYearsFromArg, ha]
  · intro cy hcy
    exact yearsDesc_spec cy hcy
  · intro cy hcy
    show yearsDesc cy = []
    rw [yearsDesc, dif_neg (by omega)]

theorem claim_years_from_arg_witness :
    getYearsFromArg (some "2023") 2025 = ["2023"] ∧
    getYearsFromArg none 2002 = ["2002", "2001", "2000"] ∧
    getYearsFromArg none 1999 = [] := by
  refine ⟨?_, ?_, ?_⟩
  · exact claim_years_from_arg.1 "2023" 2025 (by decide)
  · exact (claim_years_from_arg.2.1 2002 (by norm_num)).trans (by decide)
  · exact claim_years_from_arg.2.2 1999 (by norm_num)

/-- Claim C6: `textOrEmpty` is total on every query outcome (each failure
path — query throwing, no matching child, evaluation throwing — is caught
and yields `""`), and its result is always either `""` or the trimmed
non-empty text of the first matching child. -/
theorem claim_textOrEmpty :
    ∀ q : TextQueryOutcome,
      textOrEmpty q = "" ∨
      (∃ raw, q = TextQueryOutcome.evalText raw ∧
        textOrEmpty q = jsTrimStr raw ∧ jsTrimStr raw ≠ "") := by
  intro q
  cases q with
  | queryThrows => exact Or.inl rfl
  | noChild => exact Or.inl rfl
  | evalThrows => exact Or.inl rfl
  | evalText raw =>
      by_cases h : jsTrimStr raw = ""
      · exact Or.inl (by simp [textOrEmpty, h])
      · exact Or.inr ⟨raw, rfl, by simp [textOrEmpty, h], h⟩

/-- Claim C7: cookie load and save failures are silently swallowed:
`loadCookies` returns `false` (never throws — the model is a total
function) when the cookie file is absent, unreadable, or malformed JSON,
and returns `true` exactly when every cookie from the file was applied
successfully; the cookie save inside `ensureSignedInAndOnOrders` and the
final save in `main` are wrapped so that the save outcome never affects
the result. -/
theorem claim_cookie_failures :
    (∀ setCookie, loadCookies CookieFileState.absent setCookie = false) ∧
    (∀ setCookie, loadCookies CookieFileState.unreadable setCookie = false) ∧
    (∀ setCookie, loadCookies CookieFileState.malformed setCookie = false) ∧
    (∀ (cookies : List String) (setCookie : String → Except Unit Unit),
        loadCookies (CookieFileState.parsed cookies) setCookie = true ↔
          ∀ c ∈ cookies, setCookie c = Except.ok ()) ∧
    (∀ (checks : Nat → Except Unit Bool) (s s' : Except String Unit),
        ensureSignedInAndOnOrders checks s =
          ensureSignedInAndOnOrders checks s') ∧
    (∀ s, mainFinalSave s = Except.ok ()) := by
  refine ⟨fun _ => rfl, fun _ => rfl, fun _ => rfl, ?_, ?_, fun _ => rfl⟩
  · intro cookies setCookie
    show (if cookies.all _ then true else false) = true ↔ _
    have hb : ∀ b : Bool, (if b = true then true else false) = b := by
      intro b
      cases b <;> rfl
    rw [hb, List.all_eq_true]
    constructor
    · intro h c hc
      have h2 := h c hc
      revert h2
      cases hsc : setCookie c with
      | ok u => cases u; intro; rfl
      | error e => intro h2; cases h2
    · intro h c hc
      rw [h c hc]
  · intro checks s s'
    unfold ensureSignedInAndOnOrders
    cases waitUntil checks (10 * 60 * 1000) 1000 (by omega) <;> rfl

/-- Claim C8: `waitUntil` returns `true` as soon as its check yields `true`
(all earlier attempts failing within the window); it ignores exceptions
thrown by the check (only whether an attempt passed matters); it throws
`"Timed out waiting for condition"` once the elapsed time exceeds the
timeout without the check ever succeeding; and the manual sign-in wait
uses it with a fixed 10-minute window, so an uncompleted sign-in aborts
the run with that error. -/
theorem claim_waitUntil :
    (∀ (checks : Nat → Except Unit Bool) (t iv : Nat) (hiv : 0 < iv)
        (k : Nat),
        (∀ j, j < k → checkPassed (checks j) = false ∧ j * iv ≤ t) →
        checkPassed (checks k) = true →
        waitUntil checks t iv hiv = Except.ok true) ∧
    (∀ (checks : Nat → Except Unit Bool) (t iv : Nat) (hiv : 0 < iv),
        (∀ j, checkPassed (checks j) = false) →
        waitUntil checks t iv hiv =
          Except.error "Timed out waiting for condition") ∧
    (∀ (checks checks' : Nat → Except Unit Bool) (t iv : Nat)
        (hiv : 0 < iv),
        (∀ j, checkPassed (checks j) = checkPassed (checks' j)) →
        waitUntil checks t iv hiv = waitUntil checks' t iv hiv) ∧
    (∀ (checks : Nat → Except Unit Bool) (s : Except String Unit),
        (∀ j, checkPassed (checks j) = false) →
        ensureSignedInAndOnOrders checks s =
          Except.error "Timed out waiting for condition") ∧
    (∀ (checks : Nat → Except Unit Bool) (s : Except String Unit)
        (e : String), ensureSignedInAndOnOrders checks s = Except.error e →
        e = "Timed out waiting for condition") := by
  refine ⟨?_, ?_, ?_, ?_, ?_⟩
  · intro checks t iv hiv k h hk
    refine waitUntilAux_ok checks t iv hiv k 0
      (fun j hj1 hj2 => h j (by omega)) ?_
    simpa using hk
  · intro checks t iv hiv hnever
    exact waitUntilAux_timeout checks t iv hiv hnever (t / iv + 1) 0
      (Nat.sub_le _ _)
  · intro checks checks' t iv hiv h
    exact waitUntilAux_congr checks checks' t iv hiv h (t / iv + 1) 0
      (Nat.sub_le _ _)
  · intro checks s hnever
    unfold ensureSignedInAndOnOrders
    rw [show waitUntil checks (10 * 60 * 1000) 1000 (by omega) =
      Except.error "Timed out waiting for condition" from
      waitUntilAux_timeout checks (10 * 60 * 1000) 1000 (by omega) hnever
        (10 * 60 * 1000 / 1000 + 1) 0 (by omega)]
  · intro checks s e h
    unfold ensureSignedInAndOnOrders at h
    cases hw : waitUntil checks (10 * 60 * 1000) 1000 (by omega) with
    | ok b =>
        rw [hw] at h
        cases h
    | error e2 =>
        rw [hw] at h
        injection h with h2
        rw [← h2]
        exact waitUntilAux_error_msg checks (10 * 60 * 1000) 1000 (by omega)
          (10 * 60 * 1000 / 1000 + 1) 0 e2 (by omega) hw

theorem claim_waitUntil_witness :
    waitUntil (fun k => Except.ok (k == 2)) 600000 1000 (by omega) =
      Except.ok true ∧
    waitUntil (fun _ => Except.error ()) 5 2 (by omega) =
      Except.error "Timed out waiting for condition" ∧
    ensureSignedInAndOnOrders (fun _ => Except.ok false) (Except.ok ()) =
      Except.error "Timed out waiting for condition" := by
  refine ⟨?_, ?_, ?_⟩
  · refine claim_waitUntil.1 (fun k => Except.ok (k == 2)) 600000 1000
      (by omega) 2 ?_ (by decide)
    intro j hj
    constructor
    · interval_cases j <;> decide
    · omega
  · exact claim_waitUntil.2.1 (fun _ => Except.error ()) 5 2 (by omega)
      (fun j => rfl)
  · exact claim_waitUntil.2.2.2.1 (fun _ => Except.ok false) (Except.ok ())
      (fun j => rfl)

/-- Claim C9: for a shipment whose status matches
`/(Return|Returned|Refund|Refunded|Replacement)/i`, every item row is
written with `"0.00"` in the Total-Price field (index 5) while the
Single-Price field (index 4) still carries the parsed unit price, and the
shipment contributes 0 to the paid-after-returns accumulator; a shipment
whose status does not match contributes its full line totals. -/
theorem claim_returned_shipments :
    ∀ (orderDate rawStatus : String) (items : List (String × String)),
      (returnedTest (shipmentStatusOf rawStatus) = true →
        (processShipment orderDate rawStatus items).2.2 = 0 ∧
        ∀ (i : Nat) (item : String × String), items[i]? = some item →
          ∃ row, (processShipment orderDate rawStatus items).1[i]? =
              some row ∧
            row[5]? = some "0.00" ∧
            row[4]? = some (centsToUSD (usdToCents (some item.2)))) ∧
      (returnedTest (shipmentStatusOf rawStatus) = false →
        (processShipment orderDate rawStatus items).2.2 =
          (processShipment orderDate rawStatus items).2.1) := by
  intro d raw items
  constructor
  · intro hret
    unfold processShipment
    rw [hret]
    refine ⟨processItems_afterReturns_zero d (shipmentStatusOf raw) items, ?_⟩
    intro i item h
    refine ⟨itemRow d (shipmentStatusOf raw) true item.1 item.2,
      processItems_row d (shipmentStatusOf raw) true items i item h, ?_, ?_⟩
    · have hf := (itemRow_fields d (shipmentStatusOf raw) item.1 item.2
        true).1
      rw [hf]
      rw [show (if true then 0 else usdToCents (some item.2) *
        (parseQtyName (articleNameOf item.1)).1) = 0 from rfl]
      rw [centsToUSD_zero]
    · exact (itemRow_fields d (shipmentStatusOf raw) item.1 item.2 true).2
  · intro hret
    unfold processShipment
    rw [hret]
    exact processItems_afterReturns_total d (shipmentStatusOf raw) items

theorem claim_returned_shipments_witness :
    (processShipment "Jan 5" "Returned" [("Widget", "$5.00")]).2.2 = 0 ∧
    (∃ row,
      (processShipment "Jan 5" "Returned" [("Widget", "$5.00")]).1[0]? =
          some row ∧
        row[5]? = some "0.00" ∧
        row[4]? = some (centsToUSD (usdToCents (some "$5.00")))) ∧
    (processShipment "Jan 5" "Delivered" [("Widget", "$5.00")]).2.2 =
      (processShipment "Jan 5" "Delivered" [("Widget", "$5.00")]).2.1 := by
  refine ⟨?_, ?_, ?_⟩
  · exact ((claim_returned_shipments "Jan 5" "Returned"
      [("Widget", "$5.00")]).1 (by decide)).1
  · exact ((claim_returned_shipments "Jan 5" "Returned"
      [("Widget", "$5.00")]).1 (by decide)).2 0 ("Widget", "$5.00")
      (by decide)
  · exact (claim_returned_shipments "Jan 5" "Delivered"
      [("Widget", "$5.00")]).2 (by decide)

theorem claim_cookie_failures_witness :
    loadCookies (CookieFileState.parsed ["sess", "token"])
      (fun _ => Except.ok ()) = true :=
  (claim_cookie_failures.2.2.2.1 ["sess", "token"] (fun _ => Except.ok ())).mpr
    (fun _ _ => rfl)

end OrderHistory
